import Mathlib

/-!
# libfixposix: `lib/unistd.c` and `lib/spawn_file_actions.c`

A shallow embedding of the environment functions (`lfp_get_environ`,
`lfp_set_environ`, `lfp_clearenv`), of the exec wrappers (`lfp_execve`,
`lfp_execvpe`) and of the file-actions ledger (`lfp_spawn_file_actions_init`,
`lfp_spawn_file_actions_destroy`), followed by theorems about them.

Conventions of the embedding.

* A C string is the list of its characters before the terminating NUL; a
  `char *` that may be null is an `Option`.
* `errno` is threaded explicitly.  The numeric values are those of Linux.
* `size_t` sums are computed in `Nat`: `dirlen` is at most `PATH_MAX` and
  `filelen` is the length of a string held in memory, so `dirlen + 1 + filelen`
  stays far below `2 ^ 64`.
* The C library calls (`strchr`, `strtok_r`, `snprintf`, `putenv`, `unsetenv`,
  `clearenv`) follow their POSIX / glibc behaviour; allocation (`strdup`,
  `malloc`) is assumed to succeed and `free` to leave `errno` alone.
* `execve` is an oracle of the operating system.
-/

namespace Lfp

/-- A C string, without its terminator. -/
abbrev CStr := List Char

/-! ## errno values (Linux) -/

def ENOENT : Nat := 2
def E2BIG : Nat := 7
def ENOEXEC : Nat := 8
def ENOMEM : Nat := 12
def EINVAL : Nat := 22
def ETXTBSY : Nat := 26
def ENAMETOOLONG : Nat := 36

/-! ## C string primitives -/

/-- The call `strchr(s, c)` for `c` other than NUL: the suffix of `s` that
starts at the first occurrence of `c`, or null. -/
def strchr : CStr → Char → Option CStr
  | [], _ => none
  | x :: xs, c => if x = c then some (x :: xs) else strchr xs c

/-- The call `strlen(s)`. -/
def strlen (s : CStr) : Nat := s.length

/-- Modelled from the spec: `lfp_strnlen` (`lib/string.c`, not among the
sources here), the length of `s` capped at `maxlen`. -/
def lfp_strnlen (s : CStr) (maxlen : Nat) : Nat := min s.length maxlen

/-- The call `strspn(s, accept)`: length of the leading run of characters of
`s` that occur in `accept`. -/
def strspn : CStr → CStr → Nat
  | [], _ => 0
  | x :: xs, accept => if x ∈ accept then strspn xs accept + 1 else 0

/-- The call `strcspn(s, reject)`: length of the leading run of characters of
`s` that do not occur in `reject`. -/
def strcspn : CStr → CStr → Nat
  | [], _ => 0
  | x :: xs, reject => if x ∈ reject then 0 else strcspn xs reject + 1

/-- The call `strtok_r(s, delim, &saveptr)`.  Returns the token (null when
none is left) and the new value of `saveptr`.  With `s` null the scan resumes
at `saveptr`.  Leading delimiters are skipped, so a token is never empty. -/
def strtok_r (s : Option CStr) (delim : CStr) (saveptr : CStr) : Option CStr × CStr :=
  let s0 := match s with
    | some s => s
    | none => saveptr
  let s1 := s0.drop (strspn s0 delim)
  if s1 = [] then (none, s1)
  else
    let n := strcspn s1 delim
    if s1.drop n = [] then (some (s1.take n), [])
    else (some (s1.take n), s1.drop (n + 1))

/-- The call `snprintf(buf, size, "%s/%s", a, b)`, as the string left in
`buf`: the formatted text, cut to `size - 1` characters. -/
def snprintf_path (size : Nat) (a b : CStr) : CStr :=
  (a ++ '/' :: b).take (size - 1)

/-- Indices of `buf` stored to by `snprintf(buf, size, "%s/%s", a, b)`: the
characters kept and the terminator after them; none when `size` is zero. -/
def snprintf_path_writes (size : Nat) (a b : CStr) : List Nat :=
  if size = 0 then [] else List.range (min (a ++ '/' :: b).length (size - 1) + 1)

/-! ## exec -/

/-- What one `execve` call does: replace the process image (no return), or
return `rv` to the caller with `errno` set to `err`. -/
inductive ExecveOutcome where
  | noreturn
  | returns (rv : Int) (err : Nat)
  deriving DecidableEq, Repr

/-- The parts of the system `lfp_execvpe` relies on. -/
structure Sys where
  /-- The constant of `<limits.h>`. -/
  PATH_MAX : Nat
  /-- The outcome of the `n`-th `execve` call of the run (counted from 0)
  with the given path, `argv` and `envp`. -/
  execve : Nat → CStr → List CStr → List CStr → ExecveOutcome
  /-- The helper `lfp_getpath(envp)` (`lib/stdlib.c`, not among the sources here): from
  `envp` and the current `errno` to the freshly allocated search path and the
  `errno` it leaves. -/
  lfp_getpath : List CStr → Nat → CStr × Nat

/-- How a call ended. -/
inductive Exit where
  /-- The function returned `rv`. -/
  | returned (rv : Int)
  /-- An `execve` succeeded: the process image was replaced. -/
  | replaced
  /-- The model ran out of fuel. -/
  | timeout
  deriving DecidableEq, Repr

/-- What a call has done so far. -/
structure Trace where
  /-- The current value of `errno`. -/
  errno : Nat
  /-- The paths passed to `execve`, in call order. -/
  execs : List CStr
  /-- The number of `lfp_getpath` calls. -/
  getpaths : Nat
  /-- The indices of the local buffer `path` that were stored to. -/
  writes : List Nat
  deriving DecidableEq, Repr

/-- The observable record of a call of `lfp_execve` or `lfp_execvpe`: how it
ended, and what it had done by then. -/
structure Run extends Trace where
  exit : Exit
  deriving DecidableEq, Repr

/-- The test `errno == E2BIG || errno == ENOEXEC || errno == ENOMEM || errno == ETXTBSY`. -/
def stopErrno (e : Nat) : Bool :=
  e == E2BIG || e == ENOEXEC || e == ENOMEM || e == ETXTBSY

/-- Modelled from the spec: the macro `SYSCHECK(errcode, expr)`, whose header
is not among the sources here.  When `expr` holds it sets `errno` to
`errcode` and returns -1; this is the failing case. -/
def SYSCHECK_fail (errcode : Nat) (t : Trace) : Run :=
  { toTrace := { t with errno := errcode }, exit := .returned (-1) }

/-- `lfp_execve(path, argv, envp)`, entered with the trace `t`. -/
def lfp_execve (sys : Sys) (t : Trace) (path : Option CStr) (argv envp : List CStr) : Run :=
  match path with
  | none => SYSCHECK_fail EINVAL t
  | some path =>
    if path.head? = none then SYSCHECK_fail ENOENT t
    else
      -- return execve(path, argv, envp);
      match sys.execve t.execs.length path argv envp with
      | .noreturn => { toTrace := { t with execs := t.execs ++ [path] }, exit := .replaced }
      | .returns rv e =>
        { toTrace := { t with errno := e, execs := t.execs ++ [path] }, exit := .returned rv }

/-- The `while` loop of `lfp_execvpe`, one iteration per unit of fuel. -/
def execvpe_loop (sys : Sys) (file : CStr) (argv envp : List CStr) :
    Nat → Option CStr → CStr → Trace → Run
  | 0, _, _, t => { toTrace := t, exit := .timeout }
  | fuel + 1, tmpath, saveptr, t =>
    match strtok_r tmpath [':'] saveptr with
    | (none, _) =>
      -- free(searchpath); return -1;
      { toTrace := t, exit := .returned (-1) }
    | (some bindir, saveptr) =>
      -- tmpath = NULL;
      if bindir.head? ≠ none then
        let dirlen := lfp_strnlen bindir sys.PATH_MAX
        let pathlen := dirlen + 1 + strlen file
        if pathlen ≥ sys.PATH_MAX then SYSCHECK_fail ENAMETOOLONG t
        else
          -- snprintf(path, PATH_MAX, "%s/%s", bindir, file); path[pathlen] = 0;
          let path := (snprintf_path sys.PATH_MAX bindir file).take pathlen
          let writes := t.writes ++ snprintf_path_writes sys.PATH_MAX bindir file ++ [pathlen]
          match sys.execve t.execs.length path argv envp with
          | .noreturn =>
            { toTrace := { t with execs := t.execs ++ [path], writes := writes },
              exit := .replaced }
          | .returns _ e =>
            if stopErrno e then
              -- break; free(searchpath); return -1;
              { toTrace := { t with errno := e, execs := t.execs ++ [path], writes := writes },
                exit := .returned (-1) }
            else
              execvpe_loop sys file argv envp fuel none saveptr
                { t with errno := e, execs := t.execs ++ [path], writes := writes }
      else
        execvpe_loop sys file argv envp fuel none saveptr t

/-- `lfp_execvpe(file, argv, envp)`, entered with the trace `t`.  The loop
gets one unit of fuel per character of the search path, and one more. -/
def lfp_execvpe (sys : Sys) (t : Trace) (file : Option CStr) (argv envp : List CStr) : Run :=
  match file with
  | none => SYSCHECK_fail EINVAL t
  | some file =>
    if file.head? = none then SYSCHECK_fail ENOENT t
    else if (strchr file '/').isSome then
      -- return execve(file, argv, envp);
      match sys.execve t.execs.length file argv envp with
      | .noreturn => { toTrace := { t with execs := t.execs ++ [file] }, exit := .replaced }
      | .returns rv e =>
        { toTrace := { t with errno := e, execs := t.execs ++ [file] }, exit := .returned rv }
    else
      -- tmpath = searchpath = lfp_getpath(envp);
      let searchpath := sys.lfp_getpath envp t.errno
      execvpe_loop sys file argv envp (searchpath.1.length + 1) (some searchpath.1) []
        { t with errno := searchpath.2, getpaths := t.getpaths + 1 }

/-- A call entered with `errno` as given and nothing done yet. -/
def Trace.init (errno : Nat) : Trace := ⟨errno, [], 0, []⟩

/-- Specification side: the non-empty `:`-separated segments of a search
path, left to right. -/
def segments (searchpath : CStr) : List CStr :=
  (searchpath.splitOn ':').filter (fun s => s ≠ [])

/-- Specification side: the candidate path of a directory, `dir + "/" + file`. -/
def candidate (file dir : CStr) : CStr := dir ++ '/' :: file

/-- Specification side: the candidate paths of a search path, left to right. -/
def candidates (searchpath file : CStr) : List CStr :=
  (segments searchpath).map (candidate file)

/-! ## The process environment -/

/-- The process environment, and the calls this library made on it. -/
structure Proc where
  /-- The global `environ`: null, or the entries before the terminating null. -/
  environ : Option (List CStr)
  /-- The arguments of the `unsetenv` calls, in call order. -/
  unsetenv_calls : List (Option CStr)
  /-- The arguments of the `putenv` calls, in call order. -/
  putenv_calls : List CStr
  deriving DecidableEq, Repr

/-- The entries of an environment; a null `environ` has none. -/
def entries (env : Option (List CStr)) : List CStr := env.getD []

/-- Specification side: the variable name of an entry, the text before its
first `=`. -/
def entryName (entry : CStr) : CStr := entry.takeWhile (fun c => c ≠ '=')

/-- The test the C library uses to find the entry of a variable:
`strncmp(entry, name, len) == 0 && entry[len] == '='` with `len = strlen(name)`. -/
def namedBy (name entry : CStr) : Bool := entry.take (name.length + 1) == name ++ ['=']

/-- The call `unsetenv(name)`: fails with EINVAL, changing nothing, when
`name` is null, empty or contains `=`; otherwise removes every entry of the
variable, in place. -/
def unsetenv (name : Option CStr) (p : Proc) : Int × Proc :=
  let p := { p with unsetenv_calls := p.unsetenv_calls ++ [name] }
  match name with
  | none => (-1, p)
  | some n =>
    if n = [] ∨ '=' ∈ n then (-1, p)
    else (0, { p with environ := p.environ.map (List.filter (fun e => !namedBy n e)) })

/-- The search-and-store of `putenv`: the first entry of the variable is
replaced by `s`; when there is none `s` is added at the end. -/
def add_to_environ (name s : CStr) : List CStr → List CStr
  | [] => [s]
  | e :: es => if namedBy name e then s :: es else e :: add_to_environ name s es

/-- The call `putenv(s)`: with an `=` in `s`, sets the variable named before
it to the entry `s` itself; without one, removes the variable `s` (glibc). -/
def putenv (s : CStr) (p : Proc) : Int × Proc :=
  let p := { p with putenv_calls := p.putenv_calls ++ [s] }
  match strchr s '=' with
  | some eq =>
    let name := s.take (s.length - eq.length)
    (0, { p with environ := some (add_to_environ name s (entries p.environ)) })
  | none =>
    (0, { p with environ := p.environ.map (List.filter (fun e => !namedBy s e)) })

/-- The call `clearenv()` of the C library, where it exists. -/
def clearenv (p : Proc) : Int × Proc := (0, { p with environ := none })

/-- `lfp_get_environ()`. -/
def lfp_get_environ (p : Proc) : Option (List CStr) := p.environ

/-- `_lfp_reset_environ()`: `environ = NULL`. -/
def _lfp_reset_environ (p : Proc) : Proc := { p with environ := none }

/-- The `for` loop of `lfp_clearenv`, one iteration per unit of fuel; `var`
is the index into the live table `env` points to.  `none` is out of fuel. -/
def clearenv_loop : Nat → Nat → Proc → Option (Int × Proc)
  | 0, _, _ => none
  | fuel + 1, var, p =>
    match (entries p.environ)[var]? with
    | none =>
      -- _lfp_reset_environ(); return 0;
      some (0, _lfp_reset_environ p)
    | some entry =>
      -- char *tmp = strdup(*var); char *eql = strchr(tmp, '=');
      let tmp := entry
      match strchr tmp '=' with
      | none => some (-1, p)
      | some _ =>
        -- eql = '\0'; unsetenv(eql);   (the pointer itself is set to null)
        let eql : Option CStr := none
        clearenv_loop fuel (var + 1) (unsetenv eql p).2

/-- `lfp_clearenv()`, for either setting of `HAVE_CLEARENV`.  `none` is out
of fuel. -/
def lfp_clearenv (HAVE_CLEARENV : Bool) (p : Proc) : Option (Int × Proc) :=
  if HAVE_CLEARENV then some (clearenv p)
  else
    match lfp_get_environ p with
    | none => some (0, p)
    | some env => clearenv_loop (env.length + 1) 0 p

/-- `lfp_set_environ(newenv)`.  `none` is out of fuel. -/
def lfp_set_environ (HAVE_CLEARENV : Bool) (newenv : Option (List CStr)) (p : Proc) :
    Option (Int × Proc) :=
  match lfp_clearenv HAVE_CLEARENV p with
  | none => none
  | some (r, p) =>
    if r < 0 then some (-1, p)
    else
      match newenv with
      | some vars => some (0, vars.foldl (fun p v => (putenv v p).2) p)
      | none => some (0, p)

/-- A process with the given `environ` on which nothing was called yet. -/
def Proc.init (environ : Option (List CStr)) : Proc := ⟨environ, [], []⟩

/-! ## The file-actions ledger -/

inductive lfp_spawn_action_type where
  | LFP_SPAWN_FILE_ACTION_OPEN
  | LFP_SPAWN_FILE_ACTION_CLOSE
  | LFP_SPAWN_FILE_ACTION_DUP2
  deriving DecidableEq, Repr

structure lfp_spawn_action where
  type : lfp_spawn_action_type
  fd : Int
  newfd : Int
  path : Option CStr
  flags : Nat
  mode : Nat
  deriving DecidableEq, Repr

/-- Modelled from the spec: the ledger type `lfp_spawn_file_actions_t`, whose
declaration is in a header that is not among the sources here.  Its field
`actions` is null or the ordered sequence of recorded actions. -/
structure lfp_spawn_file_actions_t where
  actions : Option (List lfp_spawn_action)
  deriving DecidableEq, Repr

/-- Modelled from the spec: the error code `LFP_EINVAL` of the library's
headers, the invalid-argument error. -/
def LFP_EINVAL : Nat := EINVAL

/-- `lfp_spawn_file_actions_init(file_actions)`: the return value, `errno`
and the ledger afterwards. -/
def lfp_spawn_file_actions_init (file_actions : Option lfp_spawn_file_actions_t) (errno : Nat) :
    Int × Nat × Option lfp_spawn_file_actions_t :=
  match file_actions with
  | none => (-1, LFP_EINVAL, none)
  | some fa => (0, errno, some { fa with actions := none })

/-- `lfp_spawn_file_actions_destroy(file_actions)`: the return value, `errno`
and the ledger afterwards. -/
def lfp_spawn_file_actions_destroy (file_actions : Option lfp_spawn_file_actions_t)
    (errno : Nat) : Int × Nat × Option lfp_spawn_file_actions_t :=
  match file_actions with
  | none => (-1, LFP_EINVAL, none)
  | some fa =>
    -- TODO: free file_actions->actions
    (0, errno, some fa)

/-! ## Reference form of the search loop -/

/-- The body of the `while` loop of `lfp_execvpe`, run over the list of the
tokens that `strtok_r` hands out. -/
def searchSegs (sys : Sys) (file : CStr) (argv envp : List CStr) : List CStr → Trace → Run
  | [], t => { toTrace := t, exit := .returned (-1) }
  | bindir :: rest, t =>
    if bindir.head? ≠ none then
      let dirlen := lfp_strnlen bindir sys.PATH_MAX
      let pathlen := dirlen + 1 + strlen file
      if pathlen ≥ sys.PATH_MAX then SYSCHECK_fail ENAMETOOLONG t
      else
        let path := (snprintf_path sys.PATH_MAX bindir file).take pathlen
        let writes := t.writes ++ snprintf_path_writes sys.PATH_MAX bindir file ++ [pathlen]
        match sys.execve t.execs.length path argv envp with
        | .noreturn =>
          { toTrace := { t with execs := t.execs ++ [path], writes := writes },
            exit := .replaced }
        | .returns _ e =>
          if stopErrno e then
            { toTrace := { t with errno := e, execs := t.execs ++ [path], writes := writes },
              exit := .returned (-1) }
          else
            searchSegs sys file argv envp rest
              { t with errno := e, execs := t.execs ++ [path], writes := writes }
    else
      searchSegs sys file argv envp rest t

/-! ## Systems for the examples -/

/-- A system with the given `PATH_MAX` and search path in which every
`execve` call returns -1 with `errno` set to `err`, and `lfp_getpath` leaves
`errno` alone. -/
def Sys.failing (pm : Nat) (searchpath : CStr) (err : Nat) : Sys :=
  ⟨pm, fun _ _ _ _ => .returns (-1) err, fun _ e => (searchpath, e)⟩

/-! ## Reference form of the clearing loop -/

/-- The body of the `for` loop of `lfp_clearenv`, run over the entries still
to visit, followed by the reset. -/
def clearRest : List CStr → Proc → Int × Proc
  | [], p => (0, _lfp_reset_environ p)
  | entry :: rest, p =>
    match strchr entry '=' with
    | none => (-1, p)
    | some _ => clearRest rest (unsetenv none p).2

/-! ## Theorems -/

theorem strchr_eq_none_iff (s : CStr) (c : Char) : strchr s c = none ↔ c ∉ s := by
  induction s with
  | nil => simp [strchr]
  | cons x xs ih =>
    by_cases h : x = c
    · simp [strchr, h]
    · simp [strchr, h, ih, Ne.symm h]

theorem strchr_isSome_iff (s : CStr) (c : Char) : (strchr s c).isSome ↔ c ∈ s := by
  rw [← not_iff_not, ← strchr_eq_none_iff]
  cases strchr s c <;> simp

theorem drop_strspn (s d : CStr) : s.drop (strspn s d) = s.dropWhile (fun c => decide (c ∈ d)) := by
  induction s with
  | nil => simp [strspn]
  | cons x xs ih =>
    by_cases h : x ∈ d
    · simp [strspn, h, List.dropWhile_cons, ih]
    · simp [strspn, h, List.dropWhile_cons]

theorem take_strcspn (s d : CStr) :
    s.take (strcspn s d) = s.takeWhile (fun c => !decide (c ∈ d)) := by
  induction s with
  | nil => simp [strcspn]
  | cons x xs ih =>
    by_cases h : x ∈ d
    · simp [strcspn, h, List.takeWhile_cons]
    · simp [strcspn, h, List.takeWhile_cons, ih]

theorem drop_strcspn (s d : CStr) :
    s.drop (strcspn s d) = s.dropWhile (fun c => !decide (c ∈ d)) := by
  induction s with
  | nil => simp [strcspn]
  | cons x xs ih =>
    by_cases h : x ∈ d
    · simp [strcspn, h, List.dropWhile_cons]
    · simp [strcspn, h, List.dropWhile_cons, ih]

/-- The token `strtok_r` returns and the rest it leaves, in closed form. -/
theorem strtok_r_some (s d sv : CStr) :
    strtok_r (some s) d sv =
      match s.dropWhile (fun c => decide (c ∈ d)) with
      | [] => (none, [])
      | c :: r => (some (c :: r.takeWhile (fun c => !decide (c ∈ d))),
                   (r.dropWhile (fun c => !decide (c ∈ d))).drop 1) := by
  unfold strtok_r
  simp only [drop_strspn]
  cases hs : s.dropWhile (fun c => decide (c ∈ d)) with
  | nil => simp
  | cons c r =>
    have hc : c ∉ d := by
      have := List.head_dropWhile_not (fun c => decide (c ∈ d)) s (by simp [hs])
      simpa [hs] using this
    simp only [reduceCtorEq, ↓reduceIte, take_strcspn, drop_strcspn]
    simp only [List.takeWhile_cons, List.dropWhile_cons, hc, decide_False, Bool.not_false,
      ↓reduceIte]
    cases hr : r.dropWhile (fun c => !decide (c ∈ d)) with
    | nil => simp
    | cons y ys =>
      simp only [reduceCtorEq, ↓reduceIte, List.drop_one, List.tail_cons]
      congr 1
      have h2 := drop_strcspn (c :: r) d
      simp only [List.dropWhile_cons, hc, decide_False, Bool.not_false, ↓reduceIte, hr] at h2
      rw [← List.drop_drop, h2]
      rfl

theorem strtok_r_none (d sv : CStr) : strtok_r none d sv = strtok_r (some sv) d sv := rfl

theorem splitOn_colon_eq (s : CStr) :
    s.splitOn ':' =
      s.takeWhile (fun c => !decide (c ∈ [':'])) ::
        (match s.dropWhile (fun c => !decide (c ∈ [':'])) with
         | [] => []
         | _ :: r => r.splitOn ':') := by
  induction s with
  | nil => simp
  | cons x xs ih =>
    by_cases h : x = ':'
    · subst h
      simp [List.splitOn, List.splitOnP_cons]
    · have hx : (x == ':') = false := by simpa using h
      rw [List.splitOn, List.splitOnP_cons, hx]
      rw [List.splitOn] at ih
      rw [ih]
      simp [List.takeWhile_cons, List.dropWhile_cons, h, List.modifyHead]

theorem segments_colon (s : CStr) : segments (':' :: s) = segments s := by
  simp [segments, List.splitOn, List.splitOnP_cons]

theorem segments_eq (s : CStr) :
    segments s =
      match s.dropWhile (fun c => decide (c ∈ [':'])) with
      | [] => []
      | c :: r => (c :: r.takeWhile (fun c => !decide (c ∈ [':']))) ::
          segments ((r.dropWhile (fun c => !decide (c ∈ [':']))).drop 1) := by
  induction s with
  | nil => simp [segments]
  | cons x xs ih =>
    by_cases h : x = ':'
    · subst h
      rw [segments_colon, ih]
      simp [List.dropWhile_cons]
    · simp only [List.dropWhile_cons, List.mem_singleton, h, decide_False]
      simp only [Bool.false_eq_true, ↓reduceIte]
      rw [segments, splitOn_colon_eq]
      simp only [List.takeWhile_cons, List.mem_singleton, h, decide_False, Bool.not_false,
        ↓reduceIte, List.dropWhile_cons]
      rw [List.filter_cons]
      simp only [ne_eq, reduceCtorEq, not_false_eq_true, decide_True, ↓reduceIte]
      congr 1
      cases hr : List.dropWhile (fun c => !decide (c = ':')) xs with
      | nil => simp [segments]
      | cons y ys => simp [segments]

/-- One `strtok_r` call on `s` against the segments of `s`: no token when
there is no segment; otherwise the first segment, leaving a shorter rest
whose segments are the remaining ones. -/
theorem strtok_r_segments (s sv : CStr) :
    (segments s = [] ∧ (strtok_r (some s) [':'] sv).1 = none) ∨
    (∃ t r, strtok_r (some s) [':'] sv = (some t, r) ∧ segments s = t :: segments r ∧
      r.length < s.length ∧ t ≠ []) := by
  rw [strtok_r_some, segments_eq]
  cases hs : s.dropWhile (fun c => decide (c ∈ [':'])) with
  | nil => left; simp
  | cons c r =>
    right
    refine ⟨_, _, rfl, rfl, ?_, by simp⟩
    have h1 : (c :: r).length ≤ s.length := by
      rw [← hs]; exact (List.dropWhile_sublist _).length_le
    have h2 : (r.dropWhile (fun c => !decide (c ∈ [':']))).length ≤ r.length :=
      (List.dropWhile_sublist _).length_le
    simp only [List.length_drop, List.length_cons] at *
    omega

theorem segments_ne_nil (s seg : CStr) (h : seg ∈ segments s) : seg ≠ [] := by
  simpa [segments] using (List.mem_filter.mp h).2

/-- With fuel beyond the length of the string still to scan, the loop is the
reference form run over the segments of that string. -/
theorem execvpe_loop_eq (sys : Sys) (file : CStr) (argv envp : List CStr) :
    ∀ (fuel : Nat) (tmpath : Option CStr) (sv : CStr) (t : Trace),
      (tmpath.getD sv).length < fuel →
      execvpe_loop sys file argv envp fuel tmpath sv t =
        searchSegs sys file argv envp (segments (tmpath.getD sv)) t := by
  intro fuel
  induction fuel with
  | zero => intro tmpath sv t h; omega
  | succ n ih =>
    intro tmpath sv t h
    have hk : strtok_r tmpath [':'] sv = strtok_r (some (tmpath.getD sv)) [':'] sv := by
      cases tmpath <;> rfl
    rcases strtok_r_segments (tmpath.getD sv) sv with ⟨h1, h2⟩ | ⟨tok, r, h1, h2, h3, h4⟩
    · rw [execvpe_loop, hk, h1]
      cases hq : strtok_r (some (tmpath.getD sv)) [':'] sv with
      | mk a b =>
        rw [hq] at h2
        simp only at h2
        subst h2
        simp [searchSegs]
    · rw [execvpe_loop, hk, h1, h2, searchSegs]
      have hr : r.length < n := by omega
      have ih1 := fun t => ih none r t (by simpa using hr)
      simp only [Option.getD_none] at ih1
      simp only [ih1]

/-- A bare, non-empty file name sends `lfp_execvpe` into the search loop,
which is the reference form run over the segments of the search path. -/
theorem lfp_execvpe_bare (sys : Sys) (t : Trace) (file : CStr) (argv envp : List CStr)
    (hne : file ≠ []) (hbare : '/' ∉ file) :
    lfp_execvpe sys t (some file) argv envp =
      searchSegs sys file argv envp (segments (sys.lfp_getpath envp t.errno).1)
        { t with errno := (sys.lfp_getpath envp t.errno).2, getpaths := t.getpaths + 1 } := by
  have h1 : file.head? ≠ none := by
    cases file with
    | nil => exact absurd rfl hne
    | cons a l => simp
  have h2 : (strchr file '/').isSome = false := by
    have := (strchr_eq_none_iff file '/').mpr hbare
    simp [this]
  simp only [lfp_execvpe, h1, h2, ↓reduceIte, Bool.false_eq_true]
  exact execvpe_loop_eq sys file argv envp _ (some _) [] _ (by simp)

/-- A candidate that fits is composed in full. -/
theorem path_of_fit (pm : Nat) (seg file : CStr) (hfit : seg.length + 1 + file.length < pm) :
    (snprintf_path pm seg file).take (lfp_strnlen seg pm + 1 + strlen file) =
      candidate file seg := by
  have h1 : lfp_strnlen seg pm = seg.length := by
    simp only [lfp_strnlen]; omega
  have h2 : (seg ++ '/' :: file).length = seg.length + 1 + file.length := by
    simp; omega
  rw [h1, snprintf_path, strlen, candidate, List.take_take]
  apply List.take_of_length_le
  rw [h2]
  omega

theorem pathlen_ge_iff (pm : Nat) (seg file : CStr) :
    lfp_strnlen seg pm + 1 + strlen file ≥ pm ↔ seg.length + 1 + file.length ≥ pm := by
  simp only [lfp_strnlen, strlen]; omega

/-- One iteration on a segment whose candidate does not fit. -/
theorem searchSegs_cons_nofit (sys : Sys) (file : CStr) (argv envp : List CStr)
    (seg : CStr) (rest : List CStr) (t : Trace) (hseg : seg ≠ [])
    (hbig : seg.length + 1 + file.length ≥ sys.PATH_MAX) :
    searchSegs sys file argv envp (seg :: rest) t = SYSCHECK_fail ENAMETOOLONG t := by
  have h1 : seg.head? ≠ none := by
    cases seg with
    | nil => exact absurd rfl hseg
    | cons a l => simp
  have h2 := (pathlen_ge_iff sys.PATH_MAX seg file).mpr hbig
  simp only [searchSegs, h1, h2, ↓reduceIte, ne_eq, not_false_eq_true]

/-- One iteration on a segment whose candidate fits and whose `execve`
returns with an errno outside the stop set. -/
theorem searchSegs_cons_continue (sys : Sys) (file : CStr) (argv envp : List CStr)
    (seg : CStr) (rest : List CStr) (t : Trace) (rv : Int) (e : Nat) (hseg : seg ≠ [])
    (hfit : seg.length + 1 + file.length < sys.PATH_MAX)
    (hx : sys.execve t.execs.length (candidate file seg) argv envp = .returns rv e)
    (hstop : stopErrno e = false) :
    ∃ w, searchSegs sys file argv envp (seg :: rest) t =
      searchSegs sys file argv envp rest
        { t with errno := e, execs := t.execs ++ [candidate file seg], writes := w } := by
  have h1 : seg.head? ≠ none := by
    cases seg with
    | nil => exact absurd rfl hseg
    | cons a l => simp
  have h2 : ¬ (lfp_strnlen seg sys.PATH_MAX + 1 + strlen file ≥ sys.PATH_MAX) := by
    rw [pathlen_ge_iff]; omega
  refine ⟨t.writes ++ snprintf_path_writes sys.PATH_MAX seg file ++
    [lfp_strnlen seg sys.PATH_MAX + 1 + strlen file], ?_⟩
  rw [searchSegs]
  simp only [h1, h2, ↓reduceIte, ne_eq, not_false_eq_true, path_of_fit _ _ _ hfit, hx, hstop,
    Bool.false_eq_true]

/-- One iteration on a segment whose candidate fits and whose `execve`
returns with an errno of the stop set. -/
theorem searchSegs_cons_stop (sys : Sys) (file : CStr) (argv envp : List CStr)
    (seg : CStr) (rest : List CStr) (t : Trace) (rv : Int) (e : Nat) (hseg : seg ≠ [])
    (hfit : seg.length + 1 + file.length < sys.PATH_MAX)
    (hx : sys.execve t.execs.length (candidate file seg) argv envp = .returns rv e)
    (hstop : stopErrno e = true) :
    ∃ w, searchSegs sys file argv envp (seg :: rest) t =
      { toTrace := { t with errno := e, execs := t.execs ++ [candidate file seg], writes := w },
        exit := .returned (-1) } := by
  have h1 : seg.head? ≠ none := by
    cases seg with
    | nil => exact absurd rfl hseg
    | cons a l => simp
  have h2 : ¬ (lfp_strnlen seg sys.PATH_MAX + 1 + strlen file ≥ sys.PATH_MAX) := by
    rw [pathlen_ge_iff]; omega
  refine ⟨t.writes ++ snprintf_path_writes sys.PATH_MAX seg file ++
    [lfp_strnlen seg sys.PATH_MAX + 1 + strlen file], ?_⟩
  rw [searchSegs]
  simp only [h1, h2, ↓reduceIte, ne_eq, not_false_eq_true, path_of_fit _ _ _ hfit, hx, hstop]

/-- A run of segments that all fit and all fail with an errno outside the
stop set is walked through in full. -/
theorem searchSegs_append (sys : Sys) (file : CStr) (argv envp : List CStr)
    (pre rest : List CStr) : ∀ (t : Trace),
    (∀ seg ∈ pre, seg ≠ [] ∧ seg.length + 1 + file.length < sys.PATH_MAX) →
    (∀ i p, (pre.map (candidate file))[i]? = some p →
      ∃ rv e, sys.execve (t.execs.length + i) p argv envp = .returns rv e ∧
        stopErrno e = false) →
    ∃ t2 : Trace, searchSegs sys file argv envp (pre ++ rest) t =
        searchSegs sys file argv envp rest t2 ∧
      t2.execs = t.execs ++ pre.map (candidate file) ∧ t2.getpaths = t.getpaths ∧
      (pre = [] → t2.errno = t.errno) ∧
      (∀ p, (pre.map (candidate file)).getLast? = some p →
        ∃ rv, sys.execve (t.execs.length + (pre.length - 1)) p argv envp =
          .returns rv t2.errno) := by
  induction pre with
  | nil =>
    intro t _ _
    exact ⟨t, by simp⟩
  | cons seg pre ih =>
    intro t hfit hx
    obtain ⟨hseg, hsfit⟩ := hfit seg (List.mem_cons_self _ _)
    obtain ⟨rv, e, hx0, hstop⟩ := hx 0 (candidate file seg) (by simp)
    obtain ⟨w, hw⟩ := searchSegs_cons_continue sys file argv envp seg (pre ++ rest) t rv e
      hseg hsfit (by simpa using hx0) hstop
    obtain ⟨t2, h1, h2, h3, h4, h5⟩ := ih
      { t with errno := e, execs := t.execs ++ [candidate file seg], writes := w }
      (fun s hs => hfit s (List.mem_cons_of_mem _ hs))
      (fun i p hp => by
        have := hx (i + 1) p (by simpa using hp)
        simpa [Nat.add_assoc, Nat.add_comm 1 i] using this)
    refine ⟨t2, ?_, ?_, ?_, ?_, ?_⟩
    · rw [List.cons_append, hw, h1]
    · simp [h2]
    · simpa using h3
    · intro h; exact absurd h (by simp)
    · intro p hp
      cases pre with
      | nil =>
        have hp2 : candidate file seg = p := by simpa using hp
        subst hp2
        have := h4 rfl
        simp only at this
        exact ⟨rv, by simpa [this] using hx0⟩
      | cons s2 pre2 =>
        have hp2 : ((s2 :: pre2).map (candidate file)).getLast? = some p := by
          simpa [List.getLast?_cons_cons] using hp
        obtain ⟨rv2, h6⟩ := h5 p hp2
        refine ⟨rv2, ?_⟩
        simp only [List.length_append, List.length_cons, List.length_nil] at h6 ⊢
        have e1 : t.execs.length + (0 + 1) + (pre2.length + 1 - 1) =
            t.execs.length + (pre2.length + 1 + 1 - 1) := by omega
        rw [← e1]; exact h6

theorem stopErrno_iff (e : Nat) :
    stopErrno e = true ↔ e ∈ [ENOMEM, E2BIG, ENOEXEC, ETXTBSY] := by
  simp only [stopErrno, Bool.or_eq_true, beq_iff_eq, List.mem_cons, List.mem_singleton,
    List.not_mem_nil, or_false]
  tauto

theorem stopErrno_eq_false (e : Nat) (h : e ∉ [ENOMEM, E2BIG, ENOEXEC, ETXTBSY]) :
    stopErrno e = false := by
  rw [← stopErrno_iff] at h
  simpa using h

/-- The first `k` segments, all fitting and all failing with an errno
outside the stop set, are walked through; the loop goes on at segment `k`. -/
theorem searchSegs_prefix (sys : Sys) (file : CStr) (argv envp : List CStr)
    (segs : List CStr) (k : Nat) (t : Trace) (hne : ∀ s ∈ segs, s ≠ [])
    (hfit : ∀ i s, i < k → segs[i]? = some s → s.length + 1 + file.length < sys.PATH_MAX)
    (hx : ∀ i q, i < k → (segs.map (candidate file))[i]? = some q →
      ∃ rv e, sys.execve (t.execs.length + i) q argv envp = .returns rv e ∧
        e ∉ [ENOMEM, E2BIG, ENOEXEC, ETXTBSY]) :
    ∃ t2 : Trace, searchSegs sys file argv envp segs t =
        searchSegs sys file argv envp (segs.drop k) t2 ∧
      t2.execs = t.execs ++ (segs.map (candidate file)).take k ∧ t2.getpaths = t.getpaths ∧
      ((segs.take k) = [] → t2.errno = t.errno) ∧
      (∀ q, ((segs.map (candidate file)).take k).getLast? = some q →
        ∃ rv, sys.execve (t.execs.length + ((segs.take k).length - 1)) q argv envp =
          .returns rv t2.errno) := by
  have h := searchSegs_append sys file argv envp (segs.take k) (segs.drop k) t
    (fun seg hs => by
      obtain ⟨i, hi⟩ := List.mem_iff_getElem?.mp hs
      rw [List.getElem?_take] at hi
      split at hi
      · exact ⟨hne seg (List.mem_of_mem_take hs), hfit i seg (by assumption) hi⟩
      · exact absurd hi (by simp))
    (fun i p hp => by
      rw [List.map_take, List.getElem?_take] at hp
      split at hp
      · obtain ⟨rv, e, h1, h2⟩ := hx i p (by assumption) hp
        exact ⟨rv, e, h1, stopErrno_eq_false e h2⟩
      · exact absurd hp (by simp))
  rw [List.take_append_drop] at h
  simpa [List.map_take] using h

/-- What a search adds to the trace: every path it execs is the full
candidate of one of the segments and is shorter than `PATH_MAX`; every index
of `path` it stores to is below `PATH_MAX`; it never calls `lfp_getpath`. -/
theorem searchSegs_trace (sys : Sys) (file : CStr) (argv envp : List CStr) (segs : List CStr) :
    ∀ (t : Trace),
      (∀ q ∈ (searchSegs sys file argv envp segs t).execs, q ∈ t.execs ∨
        ∃ seg ∈ segs, q = candidate file seg ∧ q.length < sys.PATH_MAX) ∧
      (∀ i ∈ (searchSegs sys file argv envp segs t).writes, i ∈ t.writes ∨ i < sys.PATH_MAX) ∧
      (searchSegs sys file argv envp segs t).getpaths = t.getpaths := by
  induction segs with
  | nil =>
    intro t
    exact ⟨fun q hq => Or.inl hq, fun i hi => Or.inl hi, rfl⟩
  | cons seg rest ih =>
    intro t
    rw [searchSegs]
    by_cases h1 : seg.head? ≠ none
    · by_cases h2 : lfp_strnlen seg sys.PATH_MAX + 1 + strlen file ≥ sys.PATH_MAX
      · simp only [h1, h2, ↓reduceIte, ne_eq, not_false_eq_true, SYSCHECK_fail]
        exact ⟨fun q hq => Or.inl hq, fun i hi => Or.inl hi, trivial⟩
      · have hfit : seg.length + 1 + file.length < sys.PATH_MAX := by
          rw [pathlen_ge_iff] at h2; omega
        have hlen : (candidate file seg).length < sys.PATH_MAX := by
          simp only [candidate, List.length_append, List.length_cons]; omega
        have hw : ∀ i ∈ t.writes ++ snprintf_path_writes sys.PATH_MAX seg file ++
            [lfp_strnlen seg sys.PATH_MAX + 1 + strlen file], i ∈ t.writes ∨ i < sys.PATH_MAX := by
          intro i hi
          simp only [List.mem_append, List.mem_singleton] at hi
          rcases hi with (hi | hi) | hi
          · exact Or.inl hi
          · right
            unfold snprintf_path_writes at hi
            split at hi
            · exact absurd hi (by simp)
            · simp only [List.mem_range] at hi
              omega
          · right; omega
        have hq1 : ∀ q ∈ t.execs ++ [candidate file seg], q ∈ t.execs ∨
            ∃ s ∈ seg :: rest, q = candidate file s ∧ q.length < sys.PATH_MAX := by
          intro q hq
          rcases List.mem_append.mp hq with hq | hq
          · exact Or.inl hq
          · have hq2 := List.mem_singleton.mp hq
            exact Or.inr ⟨seg, List.mem_cons_self _ _, hq2, hq2 ▸ hlen⟩
        simp only [h1, h2, ↓reduceIte, ne_eq, not_false_eq_true, path_of_fit _ _ _ hfit]
        cases hx : sys.execve t.execs.length (candidate file seg) argv envp with
        | noreturn => exact ⟨hq1, hw, rfl⟩
        | returns rv e =>
          by_cases hs : stopErrno e = true
          · simp only [hs, ↓reduceIte]
            exact ⟨hq1, hw, trivial⟩
          · simp only [hs, ↓reduceIte, Bool.false_eq_true]
            obtain ⟨i1, i2, i3⟩ := ih
              { t with errno := e, execs := t.execs ++ [candidate file seg],
                       writes := t.writes ++ snprintf_path_writes sys.PATH_MAX seg file ++
                         [lfp_strnlen seg sys.PATH_MAX + 1 + strlen file] }
            refine ⟨?_, ?_, i3⟩
            · intro q hq
              rcases i1 q hq with hq | ⟨s, hs1, hs2⟩
              · exact hq1 q hq
              · exact Or.inr ⟨s, List.mem_cons_of_mem _ hs1, hs2⟩
            · intro i hi
              rcases i2 i hi with hi | hi
              · exact hw i hi
              · exact Or.inr hi
    · simp only [h1, ↓reduceIte]
      obtain ⟨i1, i2, i3⟩ := ih t
      refine ⟨?_, i2, i3⟩
      intro q hq
      rcases i1 q hq with hq | ⟨s, hs1, hs2⟩
      · exact Or.inl hq
      · exact Or.inr ⟨s, List.mem_cons_of_mem _ hs1, hs2⟩

/-- One iteration on a segment whose candidate fits. -/
theorem searchSegs_cons_fit (sys : Sys) (file : CStr) (argv envp : List CStr)
    (seg : CStr) (rest : List CStr) (t : Trace) (hseg : seg ≠ [])
    (hfit : seg.length + 1 + file.length < sys.PATH_MAX) :
    ∃ w, searchSegs sys file argv envp (seg :: rest) t =
      match sys.execve t.execs.length (candidate file seg) argv envp with
      | .noreturn =>
        { toTrace := { t with execs := t.execs ++ [candidate file seg], writes := w },
          exit := .replaced }
      | .returns _ e =>
        if stopErrno e then
          { toTrace := { t with errno := e, execs := t.execs ++ [candidate file seg],
                                writes := w },
            exit := .returned (-1) }
        else
          searchSegs sys file argv envp rest
            { t with errno := e, execs := t.execs ++ [candidate file seg], writes := w } := by
  have h1 : seg.head? ≠ none := by
    cases seg with
    | nil => exact absurd rfl hseg
    | cons a l => simp
  have h2 : ¬ (lfp_strnlen seg sys.PATH_MAX + 1 + strlen file ≥ sys.PATH_MAX) := by
    rw [pathlen_ge_iff]; omega
  refine ⟨t.writes ++ snprintf_path_writes sys.PATH_MAX seg file ++
    [lfp_strnlen seg sys.PATH_MAX + 1 + strlen file], ?_⟩
  rw [searchSegs]
  simp only [h1, h2, ↓reduceIte, ne_eq, not_false_eq_true, path_of_fit _ _ _ hfit]

/-- The paths a search execs are a run of leading candidates, in order. -/
theorem searchSegs_execs_prefix (sys : Sys) (file : CStr) (argv envp : List CStr)
    (segs : List CStr) (hne : ∀ s ∈ segs, s ≠ []) : ∀ (t : Trace),
    ∃ n, (searchSegs sys file argv envp segs t).execs =
      t.execs ++ (segs.map (candidate file)).take n := by
  induction segs with
  | nil => intro t; exact ⟨0, by simp [searchSegs]⟩
  | cons seg rest ih =>
    intro t
    have hseg := hne seg (List.mem_cons_self _ _)
    by_cases hfit : seg.length + 1 + file.length < sys.PATH_MAX
    · obtain ⟨w, hw⟩ := searchSegs_cons_fit sys file argv envp seg rest t hseg hfit
      rw [hw]
      cases hx : sys.execve t.execs.length (candidate file seg) argv envp with
      | noreturn => exact ⟨1, by simp⟩
      | returns rv e =>
        by_cases hs : stopErrno e = true
        · exact ⟨1, by simp [hs]⟩
        · obtain ⟨n, hn⟩ := ih (fun s h => hne s (List.mem_cons_of_mem _ h))
            { t with errno := e, execs := t.execs ++ [candidate file seg], writes := w }
          refine ⟨n + 1, ?_⟩
          simp only [hs, Bool.false_eq_true, ↓reduceIte]
          rw [hn]
          simp
    · rw [searchSegs_cons_nofit sys file argv envp seg rest t hseg (by omega)]
      exact ⟨0, by simp [SYSCHECK_fail]⟩

/-- An exec attempt of a search that returns with an errno of the stop set
is the last one: the search returns -1 with that errno. -/
theorem searchSegs_stop (sys : Sys) (file : CStr) (argv envp : List CStr)
    (segs : List CStr) (hne : ∀ s ∈ segs, s ≠ []) :
    ∀ (t : Trace) (k : Nat) (p : CStr) (rv : Int) (e : Nat), t.execs.length ≤ k →
      (searchSegs sys file argv envp segs t).execs[k]? = some p →
      sys.execve k p argv envp = .returns rv e → stopErrno e = true →
      (searchSegs sys file argv envp segs t).exit = .returned (-1) ∧
      (searchSegs sys file argv envp segs t).errno = e ∧
      (searchSegs sys file argv envp segs t).execs.length = k + 1 := by
  induction segs with
  | nil =>
    intro t k p rv e hk hp _ _
    simp only [searchSegs] at hp
    rw [List.getElem?_eq_none hk] at hp
    exact absurd hp (by simp)
  | cons seg rest ih =>
    intro t k p rv e hk hp hx hstop
    have hseg := hne seg (List.mem_cons_self _ _)
    have hrest : ∀ s ∈ rest, s ≠ [] := fun s h => hne s (List.mem_cons_of_mem _ h)
    by_cases hfit : seg.length + 1 + file.length < sys.PATH_MAX
    · obtain ⟨w, hw⟩ := searchSegs_cons_fit sys file argv envp seg rest t hseg hfit
      rw [hw] at hp ⊢
      cases hx0 : sys.execve t.execs.length (candidate file seg) argv envp with
      | noreturn =>
        rw [hx0] at hp
        simp only at hp
        by_cases hkl : k = t.execs.length
        · subst hkl
          rw [List.getElem?_concat_length] at hp
          injection hp with hp
          subst hp
          rw [hx0] at hx
          exact absurd hx (by simp)
        · rw [List.getElem?_eq_none (by simp; omega)] at hp
          exact absurd hp (by simp)
      | returns rv0 e0 =>
        rw [hx0] at hp
        by_cases hs : stopErrno e0 = true
        · simp only [hs, ↓reduceIte] at hp ⊢
          by_cases hkl : k = t.execs.length
          · subst hkl
            rw [List.getElem?_concat_length] at hp
            injection hp with hp
            subst hp
            rw [hx0] at hx
            injection hx with _ he
            subst he
            refine ⟨?_, ?_, ?_⟩ <;> simp
          · rw [List.getElem?_eq_none (by simp; omega)] at hp
            exact absurd hp (by simp)
        · simp only [hs, Bool.false_eq_true, ↓reduceIte] at hp ⊢
          by_cases hkl : k = t.execs.length
          · subst hkl
            obtain ⟨n, hn⟩ := searchSegs_execs_prefix sys file argv envp rest hrest
              { t with errno := e0, execs := t.execs ++ [candidate file seg], writes := w }
            rw [hn] at hp
            simp only [List.append_assoc, List.singleton_append] at hp
            rw [List.getElem?_append_right (Nat.le_refl _)] at hp
            simp only [Nat.sub_self, List.getElem?_cons_zero, Option.some.injEq] at hp
            subst hp
            rw [hx0] at hx
            injection hx with _ he
            subst he
            exact absurd hstop hs
          · exact ih hrest _ k p rv e (by simp; omega) hp hx hstop
    · rw [searchSegs_cons_nofit sys file argv envp seg rest t hseg (by omega)] at hp
      simp only [SYSCHECK_fail] at hp
      rw [List.getElem?_eq_none hk] at hp
      exact absurd hp (by simp)

theorem candidates_getElem? (sp file : CStr) (k : Nat) (p : CStr)
    (h : (candidates sp file)[k]? = some p) :
    ∃ seg, (segments sp)[k]? = some seg ∧ p = candidate file seg ∧
      (segments sp).drop k = seg :: (segments sp).drop (k + 1) ∧ k < (segments sp).length := by
  rw [candidates, List.getElem?_map] at h
  cases hs : (segments sp)[k]? with
  | none => rw [hs] at h; exact absurd h (by simp)
  | some seg =>
    rw [hs] at h
    obtain ⟨hlt, hget⟩ := List.getElem?_eq_some.mp hs
    refine ⟨seg, rfl, ?_, ?_, hlt⟩
    · simpa using h.symm
    · rw [List.drop_eq_getElem_cons hlt, hget]

/-- The stop of the search at candidate `k`, read off the search path and
the outcomes of `execve`. -/
theorem lfp_execvpe_stop_at_candidate (sys : Sys) (errno : Nat) (file : CStr)
    (argv envp : List CStr) (k : Nat) (p : CStr) (rv : Int) (e : Nat)
    (hne : file ≠ []) (hbare : '/' ∉ file)
    (hk : (candidates (sys.lfp_getpath envp errno).1 file)[k]? = some p)
    (hfit : ∀ i seg, i ≤ k → (segments (sys.lfp_getpath envp errno).1)[i]? = some seg →
      seg.length + 1 + file.length < sys.PATH_MAX)
    (hearlier : ∀ i q, i < k → (candidates (sys.lfp_getpath envp errno).1 file)[i]? = some q →
      ∃ rv2 e2, sys.execve i q argv envp = .returns rv2 e2 ∧
        e2 ∉ [ENOMEM, E2BIG, ENOEXEC, ETXTBSY])
    (hfail : sys.execve k p argv envp = .returns rv e)
    (hstop : e ∈ [ENOMEM, E2BIG, ENOEXEC, ETXTBSY]) :
    (lfp_execvpe sys (Trace.init errno) (some file) argv envp).exit = .returned (-1) ∧
    (lfp_execvpe sys (Trace.init errno) (some file) argv envp).errno = e ∧
    (lfp_execvpe sys (Trace.init errno) (some file) argv envp).execs =
      (candidates (sys.lfp_getpath envp errno).1 file).take (k + 1) := by
  obtain ⟨seg, hseg, hp, hdrop, hlt⟩ := candidates_getElem? _ _ _ _ hk
  rw [lfp_execvpe_bare sys _ file argv envp hne hbare]
  simp only [Trace.init]
  obtain ⟨t2, h1, h2, -, -, -⟩ := searchSegs_prefix sys file argv envp
    (segments (sys.lfp_getpath envp errno).1) k
    ⟨(sys.lfp_getpath envp errno).2, [], 0 + 1, []⟩
    (segments_ne_nil _)
    (fun i s hi hs => hfit i s (Nat.le_of_lt hi) hs)
    (fun i q hi hq => by simpa using hearlier i q hi hq)
  have hlen : t2.execs.length = k := by
    rw [h2]; simp; omega
  have hsegfit := hfit k seg (Nat.le_refl k) hseg
  have hsegne := segments_ne_nil _ seg (List.getElem?_mem hseg)
  obtain ⟨w, hw⟩ := searchSegs_cons_stop sys file argv envp seg
    ((segments (sys.lfp_getpath envp errno).1).drop (k + 1)) t2 rv e hsegne hsegfit
    (by rw [hlen, ← hp]; exact hfail) ((stopErrno_iff e).mpr hstop)
  rw [h1, hdrop, hw]
  refine ⟨rfl, rfl, ?_⟩
  simp only [h2, List.nil_append]
  rw [candidates, List.take_succ, List.getElem?_map, hseg]
  rfl

/-- C1: for a non-empty file name without a slash and every search path,
when an exec attempt of `lfp_execvpe` (the one numbered `k`) returns with
ENOMEM, E2BIG, ENOEXEC or ETXTBSY, `lfp_execvpe` returns -1 with that errno
and its attempts are exactly the first `k + 1` candidates: none is made on a
later directory.  The second part reads the same off the search path: when
the candidates up to `k` fit, the earlier ones fail with an errno outside
the set and candidate `k` fails with one of the set.  With `k = 0` and
ENOMEM: one attempt, ENOMEM returned. -/
theorem lfp_execvpe_stops_at_fatal_errno (sys : Sys) (errno : Nat) (file : CStr)
    (argv envp : List CStr) (hne : file ≠ []) (hbare : '/' ∉ file) :
    (∀ k p rv e,
      (lfp_execvpe sys (Trace.init errno) (some file) argv envp).execs[k]? = some p →
      sys.execve k p argv envp = .returns rv e →
      e ∈ [ENOMEM, E2BIG, ENOEXEC, ETXTBSY] →
      (lfp_execvpe sys (Trace.init errno) (some file) argv envp).exit = .returned (-1) ∧
      (lfp_execvpe sys (Trace.init errno) (some file) argv envp).errno = e ∧
      (lfp_execvpe sys (Trace.init errno) (some file) argv envp).execs =
        (candidates (sys.lfp_getpath envp errno).1 file).take (k + 1)) ∧
    (∀ k p rv e,
      (candidates (sys.lfp_getpath envp errno).1 file)[k]? = some p →
      (∀ i seg, i ≤ k → (segments (sys.lfp_getpath envp errno).1)[i]? = some seg →
        seg.length + 1 + file.length < sys.PATH_MAX) →
      (∀ i q, i < k → (candidates (sys.lfp_getpath envp errno).1 file)[i]? = some q →
        ∃ rv2 e2, sys.execve i q argv envp = .returns rv2 e2 ∧
          e2 ∉ [ENOMEM, E2BIG, ENOEXEC, ETXTBSY]) →
      sys.execve k p argv envp = .returns rv e →
      e ∈ [ENOMEM, E2BIG, ENOEXEC, ETXTBSY] →
      (lfp_execvpe sys (Trace.init errno) (some file) argv envp).exit = .returned (-1) ∧
      (lfp_execvpe sys (Trace.init errno) (some file) argv envp).errno = e ∧
      (lfp_execvpe sys (Trace.init errno) (some file) argv envp).execs =
        (candidates (sys.lfp_getpath envp errno).1 file).take (k + 1)) := by
  refine ⟨?_, fun k p rv e hk hfit hearlier hfail hstop =>
    lfp_execvpe_stop_at_candidate sys errno file argv envp k p rv e hne hbare hk hfit
      hearlier hfail hstop⟩
  intro k p rv e hp hx hstop
  rw [lfp_execvpe_bare sys _ file argv envp hne hbare] at hp ⊢
  simp only [Trace.init] at hp ⊢
  obtain ⟨h1, h2, h3⟩ := searchSegs_stop sys file argv envp
    (segments (sys.lfp_getpath envp errno).1) (segments_ne_nil _)
    ⟨(sys.lfp_getpath envp errno).2, [], 0 + 1, []⟩ k p rv e (Nat.zero_le _) hp hx
    ((stopErrno_iff e).mpr hstop)
  refine ⟨h1, h2, ?_⟩
  obtain ⟨n, hn⟩ := searchSegs_execs_prefix sys file argv envp
    (segments (sys.lfp_getpath envp errno).1) (segments_ne_nil _)
    ⟨(sys.lfp_getpath envp errno).2, [], 0 + 1, []⟩
  simp only [List.nil_append] at hn
  rw [hn] at h3 ⊢
  rw [candidates]
  rw [List.length_take] at h3
  rw [List.take_eq_take]
  omega

/-- C2: for a non-empty file name without a slash and a search path all of
whose candidates fit within `PATH_MAX`, when every exec attempt returns with
an errno outside ENOMEM, E2BIG, ENOEXEC, ETXTBSY, the paths `lfp_execvpe`
passes to `execve` are exactly `segment + "/" + file` for the non-empty
segments of the search path, in order, once each; it returns -1 and `errno`
is the one of the last attempt (the one `lfp_getpath` left when there was no
attempt), so ENOENT when every attempt gives ENOENT. -/
theorem lfp_execvpe_tries_every_directory (sys : Sys) (errno : Nat) (file : CStr)
    (argv envp : List CStr) (hne : file ≠ []) (hbare : '/' ∉ file)
    (hfit : ∀ seg ∈ segments (sys.lfp_getpath envp errno).1,
      seg.length + 1 + file.length < sys.PATH_MAX)
    (hfail : ∀ i q, (candidates (sys.lfp_getpath envp errno).1 file)[i]? = some q →
      ∃ rv e, sys.execve i q argv envp = .returns rv e ∧
        e ∉ [ENOMEM, E2BIG, ENOEXEC, ETXTBSY]) :
    (lfp_execvpe sys (Trace.init errno) (some file) argv envp).exit = .returned (-1) ∧
    (lfp_execvpe sys (Trace.init errno) (some file) argv envp).execs =
      candidates (sys.lfp_getpath envp errno).1 file ∧
    (∀ q, (candidates (sys.lfp_getpath envp errno).1 file).getLast? = some q →
      ∃ rv, sys.execve ((candidates (sys.lfp_getpath envp errno).1 file).length - 1) q
        argv envp =
          .returns rv (lfp_execvpe sys (Trace.init errno) (some file) argv envp).errno) ∧
    (candidates (sys.lfp_getpath envp errno).1 file = [] →
      (lfp_execvpe sys (Trace.init errno) (some file) argv envp).errno =
        (sys.lfp_getpath envp errno).2) ∧
    (candidates (sys.lfp_getpath envp errno).1 file ≠ [] →
      (∀ i q rv e, sys.execve i q argv envp = .returns rv e → e = ENOENT) →
      (lfp_execvpe sys (Trace.init errno) (some file) argv envp).errno = ENOENT) := by
  rw [lfp_execvpe_bare sys _ file argv envp hne hbare]
  simp only [Trace.init]
  obtain ⟨t2, h1, h2, -, h4, h5⟩ := searchSegs_prefix sys file argv envp
    (segments (sys.lfp_getpath envp errno).1) (segments (sys.lfp_getpath envp errno).1).length
    ⟨(sys.lfp_getpath envp errno).2, [], 0 + 1, []⟩
    (segments_ne_nil _)
    (fun i s _ hs => hfit s (List.getElem?_mem hs))
    (fun i q _ hq => by simpa using hfail i q hq)
  rw [h1, List.drop_length, searchSegs]
  simp only [List.take_length] at h4
  have htake : List.take (segments (sys.lfp_getpath envp errno).1).length
      (List.map (candidate file) (segments (sys.lfp_getpath envp errno).1)) =
      candidates (sys.lfp_getpath envp errno).1 file := by
    rw [candidates]
    apply List.take_of_length_le
    simp
  rw [htake] at h2 h5
  have hlast : ∀ q, (candidates (sys.lfp_getpath envp errno).1 file).getLast? = some q →
      ∃ rv, sys.execve ((candidates (sys.lfp_getpath envp errno).1 file).length - 1) q
        argv envp = .returns rv t2.errno := by
    intro q hq
    obtain ⟨rv, h⟩ := h5 q hq
    exact ⟨rv, by simpa [candidates] using h⟩
  refine ⟨rfl, by simpa using h2, hlast, ?_, ?_⟩
  · intro hc
    apply h4
    simpa [candidates] using hc
  · intro hc hall
    obtain ⟨q, hq⟩ := Option.isSome_iff_exists.mp
      (by simpa using hc : (candidates (sys.lfp_getpath envp errno).1 file).getLast?.isSome)
    obtain ⟨rv, h⟩ := hlast q hq
    exact hall _ _ _ _ h

/-- A non-empty file name with a slash goes to one direct `execve`. -/
theorem lfp_execvpe_slash (sys : Sys) (t : Trace) (file : CStr) (argv envp : List CStr)
    (hne : file ≠ []) (hslash : '/' ∈ file) :
    lfp_execvpe sys t (some file) argv envp =
      match sys.execve t.execs.length file argv envp with
      | .noreturn => { toTrace := { t with execs := t.execs ++ [file] }, exit := .replaced }
      | .returns rv e =>
        { toTrace := { t with errno := e, execs := t.execs ++ [file] }, exit := .returned rv } := by
  have h1 : file.head? ≠ none := by
    cases file with
    | nil => exact absurd rfl hne
    | cons a l => simp
  have h2 : (strchr file '/').isSome = true := (strchr_isSome_iff file '/').mpr hslash
  simp only [lfp_execvpe, h1, h2, ↓reduceIte]

/-- C3: for a non-empty file name that contains a slash, `lfp_execvpe` makes
exactly one `execve` call, on the file name as given, never calls
`lfp_getpath`, and ends as that call does: the process image replaced, or the
call's return value returned with the call's errno. -/
theorem lfp_execvpe_with_slash (sys : Sys) (errno : Nat) (file : CStr) (argv envp : List CStr)
    (hne : file ≠ []) (hslash : '/' ∈ file) :
    (lfp_execvpe sys (Trace.init errno) (some file) argv envp).execs = [file] ∧
    (lfp_execvpe sys (Trace.init errno) (some file) argv envp).getpaths = 0 ∧
    (sys.execve 0 file argv envp = .noreturn →
      (lfp_execvpe sys (Trace.init errno) (some file) argv envp).exit = .replaced) ∧
    (∀ rv e, sys.execve 0 file argv envp = .returns rv e →
      (lfp_execvpe sys (Trace.init errno) (some file) argv envp).exit = .returned rv ∧
      (lfp_execvpe sys (Trace.init errno) (some file) argv envp).errno = e) := by
  rw [lfp_execvpe_slash sys _ file argv envp hne hslash]
  simp only [Trace.init, List.length_nil, List.nil_append]
  cases hx : sys.execve 0 file argv envp with
  | noreturn => simp
  | returns rv e => simp

theorem lfp_execvpe_with_slash_witness :
    (lfp_execvpe (Sys.failing 4096 "/usr/bin:/bin".toList ENOENT) (Trace.init 0)
      (some "/bin/true".toList) [] []).execs = ["/bin/true".toList] ∧
    (lfp_execvpe (Sys.failing 4096 "/usr/bin:/bin".toList ENOENT) (Trace.init 0)
      (some "/bin/true".toList) [] []).getpaths = 0 ∧
    (lfp_execvpe (Sys.failing 4096 "/usr/bin:/bin".toList ENOENT) (Trace.init 0)
      (some "/bin/true".toList) [] []).exit = .returned (-1) ∧
    (lfp_execvpe (Sys.failing 4096 "/usr/bin:/bin".toList ENOENT) (Trace.init 0)
      (some "/bin/true".toList) [] []).errno = ENOENT :=
  have h := lfp_execvpe_with_slash (Sys.failing 4096 "/usr/bin:/bin".toList ENOENT) 0
    "/bin/true".toList [] [] (by decide) (by decide)
  ⟨h.1, h.2.1, (h.2.2.2 (-1) ENOENT rfl).1, (h.2.2.2 (-1) ENOENT rfl).2⟩

/-- C4: for a non-empty file name without a slash, when the loop reaches
segment `k` (the earlier segments fit and their exec attempts returned with
an errno outside the stop set) and `len(segment) + 1 + len(file) >= PATH_MAX`,
`lfp_execvpe` returns -1 with ENAMETOOLONG and has made only the `k` earlier
attempts; and in every run each path passed to `execve` is the whole
`segment + "/" + file` of a segment, shorter than `PATH_MAX`, and every index
of `path` stored to is below `PATH_MAX`. -/
theorem lfp_execvpe_name_too_long (sys : Sys) (errno : Nat) (file : CStr)
    (argv envp : List CStr) (hne : file ≠ []) (hbare : '/' ∉ file) :
    (∀ k seg, (segments (sys.lfp_getpath envp errno).1)[k]? = some seg →
      (∀ i s, i < k → (segments (sys.lfp_getpath envp errno).1)[i]? = some s →
        s.length + 1 + file.length < sys.PATH_MAX) →
      (∀ i q, i < k → (candidates (sys.lfp_getpath envp errno).1 file)[i]? = some q →
        ∃ rv e, sys.execve i q argv envp = .returns rv e ∧
          e ∉ [ENOMEM, E2BIG, ENOEXEC, ETXTBSY]) →
      seg.length + 1 + file.length ≥ sys.PATH_MAX →
      (lfp_execvpe sys (Trace.init errno) (some file) argv envp).exit = .returned (-1) ∧
      (lfp_execvpe sys (Trace.init errno) (some file) argv envp).errno = ENAMETOOLONG ∧
      (lfp_execvpe sys (Trace.init errno) (some file) argv envp).execs =
        (candidates (sys.lfp_getpath envp errno).1 file).take k) ∧
    (∀ q ∈ (lfp_execvpe sys (Trace.init errno) (some file) argv envp).execs,
      ∃ seg ∈ segments (sys.lfp_getpath envp errno).1,
        q = seg ++ '/' :: file ∧ q.length < sys.PATH_MAX) ∧
    (∀ i ∈ (lfp_execvpe sys (Trace.init errno) (some file) argv envp).writes,
      i < sys.PATH_MAX) := by
  rw [lfp_execvpe_bare sys _ file argv envp hne hbare]
  simp only [Trace.init]
  refine ⟨?_, ?_, ?_⟩
  · intro k seg hseg hfit hx hbig
    obtain ⟨t2, h1, h2, -, -, -⟩ := searchSegs_prefix sys file argv envp
      (segments (sys.lfp_getpath envp errno).1) k
      ⟨(sys.lfp_getpath envp errno).2, [], 0 + 1, []⟩
      (segments_ne_nil _) hfit
      (fun i q hi hq => by simpa using hx i q hi hq)
    obtain ⟨hlt, hget⟩ := List.getElem?_eq_some.mp hseg
    rw [h1, List.drop_eq_getElem_cons hlt, hget,
      searchSegs_cons_nofit sys file argv envp seg _ t2
        (segments_ne_nil _ seg (List.getElem?_mem hseg)) hbig]
    refine ⟨rfl, rfl, ?_⟩
    simp only [SYSCHECK_fail, h2, List.nil_append, candidates]
  · intro q hq
    rcases (searchSegs_trace sys file argv envp (segments (sys.lfp_getpath envp errno).1)
      ⟨(sys.lfp_getpath envp errno).2, [], 0 + 1, []⟩).1 q hq with h | ⟨seg, h1, h2, h3⟩
    · exact absurd h (by simp)
    · exact ⟨seg, h1, h2, h3⟩
  · intro i hi
    rcases (searchSegs_trace sys file argv envp (segments (sys.lfp_getpath envp errno).1)
      ⟨(sys.lfp_getpath envp errno).2, [], 0 + 1, []⟩).2.1 i hi with h | h
    · exact absurd h (by simp)
    · exact h

/-- C5: `lfp_execvpe` returns -1 with EINVAL for a null file and -1 with
ENOENT for the empty file name, in both cases without any `execve` or
`lfp_getpath` call; for every other file argument the call goes past both
checks, to an `execve` call or to `lfp_getpath`. -/
theorem lfp_execvpe_argument_checks (sys : Sys) (errno : Nat) (argv envp : List CStr) :
    lfp_execvpe sys (Trace.init errno) none argv envp =
      ⟨⟨EINVAL, [], 0, []⟩, .returned (-1)⟩ ∧
    lfp_execvpe sys (Trace.init errno) (some []) argv envp =
      ⟨⟨ENOENT, [], 0, []⟩, .returned (-1)⟩ ∧
    (∀ file, file ≠ [] →
      (lfp_execvpe sys (Trace.init errno) (some file) argv envp).execs.head? = some file ∨
      (lfp_execvpe sys (Trace.init errno) (some file) argv envp).getpaths = 1) := by
  refine ⟨rfl, rfl, ?_⟩
  intro file hne
  by_cases hs : '/' ∈ file
  · left
    rw [lfp_execvpe_slash sys _ file argv envp hne hs]
    simp only [Trace.init, List.length_nil, List.nil_append]
    cases sys.execve 0 file argv envp <;> rfl
  · right
    rw [lfp_execvpe_bare sys _ file argv envp hne hs]
    exact (searchSegs_trace sys file argv envp _ _).2.2

theorem lfp_execvpe_stops_at_fatal_errno_witness :
    (lfp_execvpe (Sys.failing 4096 "/opt/bin:/bin".toList ENOMEM) (Trace.init 0)
      (some "x".toList) [] []).exit = .returned (-1) ∧
    (lfp_execvpe (Sys.failing 4096 "/opt/bin:/bin".toList ENOMEM) (Trace.init 0)
      (some "x".toList) [] []).errno = ENOMEM ∧
    (lfp_execvpe (Sys.failing 4096 "/opt/bin:/bin".toList ENOMEM) (Trace.init 0)
      (some "x".toList) [] []).execs = ["/opt/bin/x".toList] :=
  (lfp_execvpe_stops_at_fatal_errno (Sys.failing 4096 "/opt/bin:/bin".toList ENOMEM) 0
    "x".toList [] [] (by decide) (by decide)).1 0 "/opt/bin/x".toList (-1) ENOMEM
    (by decide) rfl (by decide)

theorem lfp_execvpe_tries_every_directory_witness :
    (lfp_execvpe (Sys.failing 4096 "/nonexistent:/bin".toList ENOENT) (Trace.init 0)
      (some "true".toList) [] []).exit = .returned (-1) ∧
    (lfp_execvpe (Sys.failing 4096 "/nonexistent:/bin".toList ENOENT) (Trace.init 0)
      (some "true".toList) [] []).execs = ["/nonexistent/true".toList, "/bin/true".toList] ∧
    (lfp_execvpe (Sys.failing 4096 "/nonexistent:/bin".toList ENOENT) (Trace.init 0)
      (some "true".toList) [] []).errno = ENOENT :=
  have h := lfp_execvpe_tries_every_directory
    (Sys.failing 4096 "/nonexistent:/bin".toList ENOENT) 0 "true".toList [] []
    (by decide) (by decide) (by decide) (fun _ _ _ => ⟨-1, ENOENT, rfl, by decide⟩)
  ⟨h.1, h.2.1, h.2.2.2.2 (by decide) (fun _ _ _ _ hx => by
    injection hx with _ he
    exact he.symm)⟩

theorem lfp_execvpe_name_too_long_witness :
    (lfp_execvpe (Sys.failing 8 "/a:/toolong:/b".toList ENOENT) (Trace.init 0)
      (some "x".toList) [] []).exit = .returned (-1) ∧
    (lfp_execvpe (Sys.failing 8 "/a:/toolong:/b".toList ENOENT) (Trace.init 0)
      (some "x".toList) [] []).errno = ENAMETOOLONG ∧
    (lfp_execvpe (Sys.failing 8 "/a:/toolong:/b".toList ENOENT) (Trace.init 0)
      (some "x".toList) [] []).execs = ["/a/x".toList] :=
  (lfp_execvpe_name_too_long (Sys.failing 8 "/a:/toolong:/b".toList ENOENT) 0 "x".toList [] []
    (by decide) (by decide)).1 1 "/toolong".toList (by decide)
    (fun i s hi hs => by
      have hi0 : i = 0 := by omega
      subst hi0
      have h : (segments "/a:/toolong:/b".toList)[0]? = some "/a".toList := by decide
      have hseg : s = "/a".toList := Option.some.inj (hs.symm.trans h)
      subst hseg
      decide)
    (fun _ _ _ _ => ⟨-1, ENOENT, rfl, by decide⟩) (by decide)

theorem lfp_execvpe_argument_checks_witness :
    (lfp_execvpe (Sys.failing 4096 "/bin".toList ENOENT) (Trace.init 0)
      (some "ls".toList) [] []).execs.head? = some "ls".toList ∨
    (lfp_execvpe (Sys.failing 4096 "/bin".toList ENOENT) (Trace.init 0)
      (some "ls".toList) [] []).getpaths = 1 :=
  (lfp_execvpe_argument_checks (Sys.failing 4096 "/bin".toList ENOENT) 0 [] []).2.2
    "ls".toList (by decide)

/-! ### The environment -/

theorem unsetenv_none (p : Proc) :
    (unsetenv none p).2 = { p with unsetenv_calls := p.unsetenv_calls ++ [none] } := rfl

/-- With fuel beyond the number of entries still to visit, the loop is the
reference form run over those entries. -/
theorem clearenv_loop_eq : ∀ (fuel var : Nat) (p : Proc),
    var ≤ (entries p.environ).length → (entries p.environ).length < fuel + var →
    clearenv_loop fuel var p = some (clearRest ((entries p.environ).drop var) p) := by
  intro fuel
  induction fuel with
  | zero => intro var p h1 h2; omega
  | succ n ih =>
    intro var p h1 h2
    rw [clearenv_loop]
    cases hv : (entries p.environ)[var]? with
    | none =>
      have hge : (entries p.environ).length ≤ var := List.getElem?_eq_none_iff.mp hv
      rw [List.drop_of_length_le hge]
      rfl
    | some entry =>
      obtain ⟨hlt, hget⟩ := List.getElem?_eq_some.mp hv
      rw [List.drop_eq_getElem_cons hlt, hget, clearRest]
      dsimp only
      cases hc : strchr entry '=' with
      | none => rfl
      | some r =>
        dsimp only
        have henv : (unsetenv none p).2.environ = p.environ := rfl
        have := ih (var + 1) (unsetenv none p).2 (by rw [henv]; omega) (by rw [henv]; omega)
        rw [this, henv]

theorem lfp_clearenv_false_eq (p : Proc) :
    lfp_clearenv false p = some (clearRest (entries p.environ) p) := by
  simp only [lfp_clearenv, Bool.false_eq_true, ↓reduceIte, lfp_get_environ]
  cases he : p.environ with
  | none =>
    simp only [entries, Option.getD_none, clearRest, _lfp_reset_environ]
    cases p
    simp only at he
    subst he
    rfl
  | some env =>
    have := clearenv_loop_eq (env.length + 1) 0 p (Nat.zero_le _)
      (by simp [entries, he])
    dsimp only
    rw [this, he]
    simp [entries]

/-- What the clearing loop returns and leaves, by the entries it is run over. -/
theorem clearRest_spec (l : List CStr) : ∀ (p : Proc),
    ((clearRest l p).1 = 0 ∨ (clearRest l p).1 = -1) ∧
    ((clearRest l p).1 = -1 ↔ ∃ e ∈ l, '=' ∉ e) ∧
    ((clearRest l p).1 = 0 → (clearRest l p).2.environ = none) ∧
    ((clearRest l p).1 = -1 → (clearRest l p).2.environ = p.environ) ∧
    (clearRest l p).2.putenv_calls = p.putenv_calls := by
  induction l with
  | nil =>
    intro p
    simp [clearRest, _lfp_reset_environ]
  | cons x xs ih =>
    intro p
    rw [clearRest]
    cases hc : strchr x '=' with
    | none =>
      have hx : '=' ∉ x := (strchr_eq_none_iff x '=').mp hc
      simp only [Int.reduceNeg, true_iff, or_true, true_and, neg_eq_zero, one_ne_zero,
        false_implies, implies_true, and_true]
      exact ⟨x, List.mem_cons_self _ _, hx⟩
    | some r =>
      have hx : '=' ∈ x := by
        by_contra h
        rw [(strchr_eq_none_iff x '=').mpr h] at hc
        exact absurd hc (by simp)
      obtain ⟨i1, i2, i3, i4, i5⟩ := ih (unsetenv none p).2
      refine ⟨i1, ?_, i3, i4, i5⟩
      rw [i2]
      constructor
      · rintro ⟨e, he, hne⟩
        exact ⟨e, List.mem_cons_of_mem _ he, hne⟩
      · rintro ⟨e, he, hne⟩
        rcases List.mem_cons.mp he with h | h
        · subst h; exact absurd hx hne
        · exact ⟨e, h, hne⟩

/-- C7: without a bulk-clear primitive, `lfp_clearenv` returns 0 or -1, and
-1 exactly when some entry of the environment has no `=`; when it returns 0
the environment is empty afterwards; on an environment without entries (null
or zero entries) it returns 0 and leaves it empty. -/
theorem lfp_clearenv_without_clearenv (p : Proc) :
    ∃ r q, lfp_clearenv false p = some (r, q) ∧ (r = 0 ∨ r = -1) ∧
      (r = -1 ↔ ∃ e ∈ entries p.environ, '=' ∉ e) ∧
      (r = 0 → entries q.environ = []) ∧
      (entries p.environ = [] → r = 0 ∧ entries q.environ = []) := by
  obtain ⟨i1, i2, i3, -, -⟩ := clearRest_spec (entries p.environ) p
  refine ⟨_, _, lfp_clearenv_false_eq p, i1, i2, ?_, ?_⟩
  · intro h
    rw [i3 h]
    rfl
  · intro h
    have h0 : (clearRest (entries p.environ) p).1 = 0 := by
      rcases i1 with h1 | h1
      · exact h1
      · obtain ⟨e, he, -⟩ := i2.mp h1
        rw [h] at he
        exact absurd he (by simp)
    refine ⟨h0, ?_⟩
    rw [i3 h0]
    rfl

/-- `lfp_clearenv` under either setting: it returns 0 or -1; -1 only
without the bulk-clear primitive and with an entry without `=`, which is
then still in the environment; after 0 `environ` is null; `putenv` is not
called. -/
theorem lfp_clearenv_spec (hc : Bool) (p : Proc) :
    ∃ r q, lfp_clearenv hc p = some (r, q) ∧ (r = 0 ∨ r = -1) ∧
      (r = -1 ↔ hc = false ∧ ∃ e ∈ entries p.environ, '=' ∉ e) ∧
      (r = -1 → ∃ e ∈ entries q.environ, '=' ∉ e) ∧
      (r = 0 → q.environ = none) ∧ q.putenv_calls = p.putenv_calls := by
  cases hc with
  | true =>
    exact ⟨0, { p with environ := none }, rfl, Or.inl rfl, by simp, by simp, fun _ => rfl, rfl⟩
  | false =>
    obtain ⟨i1, i2, i3, i4, i5⟩ := clearRest_spec (entries p.environ) p
    refine ⟨_, _, lfp_clearenv_false_eq p, i1, by simpa using i2, ?_, i3, i5⟩
    intro h
    rw [i4 h]
    exact i2.mp h

theorem lfp_set_environ_eq (hc : Bool) (newenv : Option (List CStr)) (p : Proc) (r : Int)
    (q : Proc) (hcl : lfp_clearenv hc p = some (r, q)) :
    lfp_set_environ hc newenv p =
      some (if r < 0 then (-1, q)
        else (0, (newenv.getD []).foldl (fun p v => (putenv v p).2) q)) := by
  rw [lfp_set_environ, hcl]
  dsimp only
  by_cases h : r < 0
  · simp only [h, ↓reduceIte]
  · simp only [h, ↓reduceIte]
    cases newenv <;> rfl

/-- C8, as stated, fails: on an environment whose first entry has no `=`,
`lfp_set_environ` returns -1 and the environment is not cleared: both
entries are still there. -/
theorem lfp_set_environ_failure_leaves_entries :
    lfp_set_environ false (some ["A=1".toList])
        (Proc.init (some ["BAD".toList, "TERM=xterm".toList])) =
      some (-1, ⟨some ["BAD".toList, "TERM=xterm".toList], [], []⟩) ∧
    entries (some ["BAD".toList, "TERM=xterm".toList]) ≠ [] := by
  decide

/-- C8, amended: `lfp_set_environ` returns 0 or -1, and -1 exactly when the
clear step fails; when it returns -1 no `putenv` call was made, and the
environment is not empty: it still holds an entry without `=`. -/
theorem lfp_set_environ_failure (hc : Bool) (newenv : Option (List CStr)) (p : Proc) :
    ∃ r q, lfp_set_environ hc newenv p = some (r, q) ∧ (r = 0 ∨ r = -1) ∧
      (r < 0 ↔ ∃ rc qc, lfp_clearenv hc p = some (rc, qc) ∧ rc < 0) ∧
      (r < 0 → q.putenv_calls = p.putenv_calls ∧ ∃ e ∈ entries q.environ, '=' ∉ e) := by
  obtain ⟨rc, qc, hcl, h01, -, hbad, -, hput⟩ := lfp_clearenv_spec hc p
  have heq := lfp_set_environ_eq hc newenv p rc qc hcl
  rcases h01 with h0 | h1
  · subst h0
    refine ⟨0, _, heq, Or.inl rfl, ?_, ?_⟩
    · constructor
      · intro h; omega
      · rintro ⟨r2, q2, h2, h3⟩
        rw [hcl] at h2
        injection h2 with h2
        injection h2 with h4 _
        omega
    · intro h; omega
  · subst h1
    refine ⟨-1, qc, heq, Or.inr rfl, ?_, ?_⟩
    · constructor
      · intro _
        exact ⟨-1, qc, hcl, by omega⟩
      · intro _; omega
    · intro _
      exact ⟨hput, hbad rfl⟩

/-- C10, at an environment of one well-formed entry: `lfp_clearenv` calls
`unsetenv` once, with a null pointer where the variable name `A` is due. -/
theorem lfp_clearenv_unsets_null :
    lfp_clearenv false (Proc.init (some ["A=1".toList])) = some (0, ⟨none, [none], []⟩) ∧
    [(none : Option CStr)] ≠ [some (entryName "A=1".toList)] ∧
    entryName "A=1".toList = "A".toList := by
  decide

/-- C9, at a ledger that holds one action: `lfp_spawn_file_actions_destroy`
returns 0 and the action list is as before, not empty. -/
theorem lfp_spawn_file_actions_destroy_keeps_actions :
    lfp_spawn_file_actions_destroy
        (some ⟨some [⟨.LFP_SPAWN_FILE_ACTION_CLOSE, 3, 0, none, 0, 0⟩]⟩) 0 =
      (0, 0, some ⟨some [⟨.LFP_SPAWN_FILE_ACTION_CLOSE, 3, 0, none, 0, 0⟩]⟩) ∧
    (some [(⟨.LFP_SPAWN_FILE_ACTION_CLOSE, 3, 0, none, 0, 0⟩ : lfp_spawn_action)]).getD [] ≠ [] := by
  decide

/-! ### Installing a new environment -/

/-- The name `putenv` cuts off at the `=` that `strchr` found is the entry
name. -/
theorem take_before_strchr (s : CStr) (c : Char) : ∀ (r : CStr), strchr s c = some r →
    s.take (s.length - r.length) = s.takeWhile (fun x => x ≠ c) := by
  induction s with
  | nil => intro r h; simp [strchr] at h
  | cons x xs ih =>
    intro r h
    by_cases hx : x = c
    · simp only [strchr, hx, ↓reduceIte, Option.some.injEq] at h
      subst h
      simp [hx]
    · simp only [strchr, hx, ↓reduceIte] at h
      have hlen : r.length ≤ xs.length := by
        have := ih r h
        by_contra hgt
        have h0 : xs.length - r.length = 0 := by omega
        rw [h0, List.take_zero] at this
        cases xs with
        | nil => simp [strchr] at h
        | cons y ys =>
          by_cases hy : y = c
          · simp only [strchr, hy, ↓reduceIte, Option.some.injEq] at h
            subst h
            simp at hgt
          · simp [List.takeWhile_cons, hy] at this
      have e1 : (x :: xs).length - r.length = (xs.length - r.length) + 1 := by
        simp only [List.length_cons]; omega
      rw [e1, List.take_succ_cons, ih r h]
      simp [List.takeWhile_cons, hx]

/-- An entry the C library finds under the name of `s` has the name of `s`. -/
theorem entryName_of_namedBy (s e : CStr) (h : namedBy (entryName s) e = true) :
    entryName e = entryName s := by
  simp only [namedBy, beq_iff_eq] at h
  have hsplit : e = (entryName s ++ ['=']) ++ e.drop ((entryName s).length + 1) := by
    conv_lhs => rw [← List.take_append_drop ((entryName s).length + 1) e, h]
  have hall : ∀ a ∈ entryName s, (fun c : Char => decide (c ≠ '=')) a = true := by
    intro a ha
    have ha2 : a ∈ List.takeWhile (fun c : Char => decide (c ≠ '=')) s := ha
    exact @List.mem_takeWhile_imp Char (fun c : Char => decide (c ≠ '=')) s a ha2
  rw [hsplit, List.append_assoc]
  conv_lhs => rw [entryName, List.takeWhile_append_of_pos hall]
  simp

theorem add_to_environ_fresh (name s : CStr) (l : List CStr)
    (h : ∀ e ∈ l, namedBy name e = false) : add_to_environ name s l = l ++ [s] := by
  induction l with
  | nil => rfl
  | cons x xs ih =>
    have hx := h x (List.mem_cons_self _ _)
    simp only [add_to_environ, hx, Bool.false_eq_true, ↓reduceIte, List.cons_append]
    rw [ih (fun e he => h e (List.mem_cons_of_mem _ he))]

/-- A `putenv` of an entry with an `=` whose name no entry of the
environment has adds the entry at the end. -/
theorem putenv_fresh (s : CStr) (p : Proc) (hs : '=' ∈ s)
    (hfresh : entryName s ∉ (entries p.environ).map entryName) :
    (putenv s p).2 = ⟨some (entries p.environ ++ [s]), p.unsetenv_calls, p.putenv_calls ++ [s]⟩ := by
  obtain ⟨r, hr⟩ := Option.isSome_iff_exists.mp ((strchr_isSome_iff s '=').mpr hs)
  have hname := take_before_strchr s '=' r hr
  rw [putenv, hr]
  dsimp only
  rw [hname]
  have hf : ∀ e ∈ entries p.environ, namedBy (entryName s) e = false := by
    intro e he
    by_contra hn
    have hn2 : namedBy (entryName s) e = true := by simpa using hn
    exact hfresh (List.mem_map.mpr ⟨e, he, entryName_of_namedBy s e hn2⟩)
  have := add_to_environ_fresh (entryName s) s (entries p.environ) hf
  rw [entryName] at this
  rw [this]

/-- The `putenv` loop of `lfp_set_environ` over entries with `=` and with
names distinct from one another and from those already there adds them at
the end, in order. -/
theorem putenv_loop_fresh (vars : List CStr) : ∀ (p : Proc),
    (∀ e ∈ vars, '=' ∈ e) → ((entries p.environ ++ vars).map entryName).Nodup →
    (vars.foldl (fun p v => (putenv v p).2) p) =
      ⟨if vars = [] then p.environ else some (entries p.environ ++ vars),
        p.unsetenv_calls, p.putenv_calls ++ vars⟩ := by
  induction vars with
  | nil => intro p _ _; simp
  | cons v vs ih =>
    intro p hv hnd
    have hfresh : entryName v ∉ (entries p.environ).map entryName := by
      rw [List.map_append, List.nodup_append] at hnd
      intro hmem
      exact hnd.2.2 hmem (by simp)
    rw [List.foldl_cons, putenv_fresh v p (hv v (List.mem_cons_self _ _)) hfresh]
    rw [ih _ (fun e he => hv e (List.mem_cons_of_mem _ he))
      (by simpa [entries, List.append_assoc] using hnd)]
    simp only [entries, Option.getD_some, List.append_assoc, List.singleton_append,
      reduceCtorEq, ↓reduceIte, Proc.mk.injEq, and_self, and_true]
    split <;> simp_all

/-- C6, as stated, fails: two entries of one variable are not both in the
environment after `lfp_set_environ`; only the second is. -/
theorem lfp_set_environ_roundtrip_fails_on_repeated_name :
    lfp_set_environ false (some ["A=1".toList, "A=2".toList]) (Proc.init none) =
      some (0, ⟨some ["A=2".toList], [], ["A=1".toList, "A=2".toList]⟩) ∧
    lfp_set_environ true (some ["A=1".toList, "A=2".toList]) (Proc.init none) =
      some (0, ⟨some ["A=2".toList], [], ["A=1".toList, "A=2".toList]⟩) ∧
    entries (lfp_get_environ ⟨some ["A=2".toList], [], ["A=1".toList, "A=2".toList]⟩) ≠
      ["A=1".toList, "A=2".toList] := by
  decide

/-- C6, amended: for every sequence `E` of entries that all contain `=` and
have pairwise distinct names, on an environment where the clear step
succeeds (the bulk-clear primitive exists, or every current entry contains
`=`), `lfp_set_environ(E)` returns 0 after one `putenv` per entry of `E` in
input order, and `lfp_get_environ()` then yields exactly the entries of `E`,
in the same order. -/
theorem lfp_set_environ_roundtrip (hc : Bool) (E : List CStr) (p : Proc)
    (hclear : hc = true ∨ ∀ e ∈ entries p.environ, '=' ∈ e)
    (hE : ∀ e ∈ E, '=' ∈ e) (hnames : (E.map entryName).Nodup) :
    ∃ q, lfp_set_environ hc (some E) p = some (0, q) ∧
      entries (lfp_get_environ q) = E ∧ q.putenv_calls = p.putenv_calls ++ E := by
  obtain ⟨rc, qc, hcl, h01, hiff, -, hnone, hput⟩ := lfp_clearenv_spec hc p
  have h0 : rc = 0 := by
    rcases h01 with h | h
    · exact h
    · obtain ⟨hf, e, he, hne⟩ := hiff.mp h
      rcases hclear with hh | hh
      · rw [hh] at hf; exact absurd hf (by simp)
      · exact absurd (hh e he) hne
  subst h0
  have henv := hnone rfl
  have heq := lfp_set_environ_eq hc (some E) p 0 qc hcl
  simp only [lt_self_iff_false, ↓reduceIte, Option.getD_some] at heq
  have hloop := putenv_loop_fresh E qc hE (by simpa [henv, entries] using hnames)
  refine ⟨_, heq, ?_, ?_⟩
  · rw [hloop, lfp_get_environ]
    by_cases hnil : E = []
    · simp [hnil, henv, entries]
    · simp [hnil, henv, entries]
  · rw [hloop, hput]

theorem lfp_set_environ_roundtrip_witness :
    ∃ q, lfp_set_environ false (some ["PATH=/bin".toList, "HOME=/root".toList])
        (Proc.init (some ["A=1".toList])) = some (0, q) ∧
      entries (lfp_get_environ q) = ["PATH=/bin".toList, "HOME=/root".toList] ∧
      q.putenv_calls = ["PATH=/bin".toList, "HOME=/root".toList] :=
  lfp_set_environ_roundtrip false ["PATH=/bin".toList, "HOME=/root".toList]
    (Proc.init (some ["A=1".toList])) (Or.inr (by decide)) (by decide) (by decide)

end Lfp
